import Mathlib

/-!
Verification of the Video Shazam fingerprinting core.

Shallow embedding of `fingerprinter.py` and `reference_store.py`.
Python floats are modelled as rationals (`ℚ`); the amplitude values and
distances the system manipulates are small decimals, for which rational
arithmetic is the intended idealised semantics.  Fallible operations
(an uncaught Python exception) are modelled with `Option`: `none` is the
failure / sentinel outcome, as documented at each definition.
-/

namespace VideoShazam

/-! ## Envelope extractor (`fingerprinter.py`, `extract_fingerprint`) -/

/-- Python `round` ties-to-even on the true value of a rational: the nearest
integer, with halves going to the even neighbour.  Models `round(x)` from
`extract_fingerprint`'s `round(..., 1)` after scaling by 10. -/
def pyRoundHalfEven (q : ℚ) : ℤ :=
  let f := ⌊q⌋
  let r := q - (f : ℚ)
  if r < 1 / 2 then f
  else if 1 / 2 < r then f + 1
  else if f % 2 = 0 then f else f + 1

/-- Python `round(x, 1)`: round to one decimal place, ties to even. -/
def pyRound1 (q : ℚ) : ℚ := (pyRoundHalfEven (10 * q) : ℚ) / 10

/-- `np.max(np.abs(chunk))`.  Since every `|x|` is nonnegative, the maximum
over a nonempty chunk equals the fold of `max` over absolute values seeded
with `0`; the code only ever applies it to nonempty chunks. -/
def maxAbs (chunk : List ℚ) : ℚ := chunk.foldl (fun acc x => max acc |x|) 0

/-- Python `range(0, n, sr)` for a positive step `sr`:
`⌈n / sr⌉` offsets `0, sr, 2*sr, …`. -/
def chunkOffsets (n sr : ℕ) : List ℕ := List.range' 0 ((n + sr - 1) / sr) sr

/-- `extract_fingerprint`, parametrised by the decoded samples `y` and the
sample rate `sr` that `librosa.load` returns (audio decoding is an external
collaborator).  `chunks.pop()` raises `IndexError` when the chunk list is
empty, modelled as `none`; otherwise it removes the final chunk and the
per-second peaks of the remaining chunks are returned. -/
def extract_fingerprint (y : List ℚ) (sr : ℕ) : Option (List ℚ) :=
  let chunks := (chunkOffsets y.length sr).map (fun o => (y.drop o).take sr)
  match chunks with
  | [] => none
  | _ => some (chunks.dropLast.map (fun c => pyRound1 (maxAbs c)))

/-! ## Sliding-window matcher (`fingerprinter.py`) -/

/-- `_l1_distance(query, reference, offset)`:
`sum(abs(q - reference[offset + j]) for j, q in enumerate(query))`.
Indexing is modelled by `zipWith` against `reference.drop offset`; this
matches the source exactly whenever `offset + query.length ≤ reference.length`,
which holds at every call site. -/
def _l1_distance (query reference : List ℚ) (offset : ℕ) : ℚ :=
  (List.zipWith (fun q r => |q - r|) query (reference.drop offset)).sum

/-- One iteration of the `best_match_position` scan.  The running state
`(best_offset, best_distance)` starts at the Python pair `(-1, math.inf)`,
modelled as `none`; any finite distance satisfies `dist < inf`, which is the
`none` case below.  `some (bo, bd)` is a state with `bo ≥ 0` and finite `bd`. -/
def bmpStep (query reference : List ℚ) (best : Option (ℕ × ℚ)) (offset : ℕ) :
    Option (ℕ × ℚ) :=
  let dist := _l1_distance query reference offset
  match best with
  | none => some (offset, dist)
  | some (bo, bd) => if dist < bd then some (offset, dist) else some (bo, bd)

/-- `best_match_position(query, reference)`.  The sentinel return
`(-1, math.inf)` (query longer than reference) is modelled as `none`. -/
def best_match_position (query reference : List ℚ) : Option (ℕ × ℚ) :=
  if reference.length < query.length then none
  else (List.range (reference.length - query.length + 1)).foldl
    (bmpStep query reference) none

/-- One iteration of the `find_best_video` loop over `enumerate(references)`.
The running triple `(best_video, best_frame, best_distance)` starts at
`(-1, -1, math.inf)`, modelled as `none`.  When `best_match_position` yields
its sentinel `(-1, inf)` the comparison `inf < best_distance` is false for
every state, so the state is kept unchanged. -/
def fbvStep (query : List ℚ) (best : Option (ℕ × ℕ × ℚ)) (entry : ℕ × List ℚ) :
    Option (ℕ × ℕ × ℚ) :=
  match best_match_position query entry.2 with
  | none => best
  | some (f, d) =>
    match best with
    | none => some (entry.1, f, d)
    | some (bi, bf, bd) => if d < bd then some (entry.1, f, d) else some (bi, bf, bd)

/-- The `for video_idx, ref in enumerate(references)` loop, with the running
index made explicit. -/
def fbvAux (query : List ℚ) : ℕ → Option (ℕ × ℕ × ℚ) → List (List ℚ) →
    Option (ℕ × ℕ × ℚ)
  | _, best, [] => best
  | idx, best, ref :: rest => fbvAux query (idx + 1) (fbvStep query best (idx, ref)) rest

/-- `find_best_video(query, references)`.  The sentinel return
`(-1, -1, math.inf)` is modelled as `none`. -/
def find_best_video (query : List ℚ) (references : List (List ℚ)) :
    Option (ℕ × ℕ × ℚ) :=
  fbvAux query 0 none references

/-! ## Fingerprint store (`reference_store.py`)

Files hold JSON text; `json.loads` is exact inverse to `json.dumps` on a
list of (finite) floats, so file contents are modelled at the level of the
parsed JSON value.  A directory is a finite association list from file name
to content, in file-system iteration order; `Option Dir` is `none` when the
directory does not exist.  Python strings are modelled as `List Char`. -/

/-- A JSON value, as far as this store produces or consumes one. -/
inductive Json where
  | num (q : ℚ)
  | arr (elems : List Json)

/-- `json.dumps(fingerprint)`: a compact numeric array. -/
def dumps (fingerprint : List ℚ) : Json := Json.arr (fingerprint.map Json.num)

/-- Reading a JSON array back as the `list[float]` the store's contract
promises: the value-level inverse of `dumps`. -/
def decodeNums : List Json → Option (List ℚ)
  | [] => some []
  | Json.num q :: rest => (decodeNums rest).map (fun l => q :: l)
  | Json.arr _ :: _ => none

/-- See `decodeNums`. -/
def decodeFingerprint : Json → Option (List ℚ)
  | Json.arr elems => decodeNums elems
  | Json.num _ => none

/-- A file name (Python `str` as a character list). -/
abbrev FileName := List Char

/-- A directory that exists: entries in file-system iteration order. -/
abbrev Dir := List (FileName × Json)

/-- The characters of `"video"`. -/
def videoNamePart : FileName := ['v', 'i', 'd', 'e', 'o']

/-- The characters of `".json"`. -/
def jsonSuffixPart : FileName := ['.', 'j', 's', 'o', 'n']

/-- Little-endian decimal digits of `n`, with explicit structural fuel
(`n` itself suffices, since `n / 10 < n`). -/
def natDigitsAux : ℕ → ℕ → List ℕ
  | 0, _ => []
  | fuel + 1, n => if n = 0 then [] else n % 10 :: natDigitsAux fuel (n / 10)

/-- The decimal numeral of `n`, as Python `str(n)` renders a nonnegative
`int` inside the f-string of `_path_for`. -/
def natDecimalChars (n : ℕ) : FileName :=
  if n = 0 then ['0'] else ((natDigitsAux n n).reverse).map (fun d => Char.ofNat (48 + d))

/-- `_path_for(video_index)`: the flat record name `video<N>.json`. -/
def _path_for (video_index : ℕ) : FileName :=
  videoNamePart ++ natDecimalChars video_index ++ jsonSuffixPart

/-- `path.write_text(...)`: overwrite the record if present (keeping its
position in iteration order), otherwise append it. -/
def writeFile : Dir → FileName → Json → Dir
  | [], p, v => [(p, v)]
  | (q, w) :: rest, p, v =>
    if q = p then (p, v) :: rest else (q, w) :: writeFile rest p v

/-- `path.read_text()` + `json.loads`: `none` is `FileNotFoundError`. -/
def lookupFile : Dir → FileName → Option Json
  | [], _ => none
  | (q, v) :: rest, p => if q = p then some v else lookupFile rest p

/-- `save_fingerprint(fingerprint, video_index, directory)`:
`directory.mkdir(parents=True, exist_ok=True)` materialises an absent
directory as empty, then the record for `video_index` is written. -/
def save_fingerprint (fingerprint : List ℚ) (video_index : ℕ) (fs : Option Dir) :
    Dir :=
  writeFile (fs.getD []) (_path_for video_index) (dumps fingerprint)

/-- `load_fingerprint(video_index, directory)`: the parsed content of the
record, `none` when the directory or the record is missing
(`FileNotFoundError`). -/
def load_fingerprint (video_index : ℕ) (fs : Option Dir) : Option Json :=
  match fs with
  | none => none
  | some d => lookupFile d (_path_for video_index)

/-- `directory.glob(...)` for the flat pattern `video*.json`: the name
starts with `video` and ends with `.json` (no separators occur in these
flat names). -/
def globVideoJson (name : FileName) : Bool :=
  videoNamePart.isPrefixOf name && jsonSuffixPart.isSuffixOf name

/-- `Path.stem` for the names `_index` is applied to: every glob-matched
name ends in the five characters `.json`, and stripping that lone suffix
leaves the stem. -/
def stem (name : FileName) : FileName := name.take (name.length - jsonSuffixPart.length)

/-- `int(...)` on a nonempty all-digit string. -/
def parseDigits (ds : List Char) : ℕ := ds.foldl (fun a c => 10 * a + (c.toNat - 48)) 0

/-- `_index(p)`: `int("".join(filter(str.isdigit, p.stem)) or -1)` — the
digits of the stem concatenated and parsed, `-1` when there are none. -/
def _index (name : FileName) : ℤ :=
  let ds := (stem name).filter Char.isDigit
  if ds = [] then -1 else (parseDigits ds : ℤ)

/-- The sort key order of `sorted(..., key=_index)`. -/
def entryLE (a b : FileName × Json) : Prop := _index a.1 ≤ _index b.1

instance : DecidableRel entryLE :=
  fun a b => inferInstanceAs (Decidable (_index a.1 ≤ _index b.1))

instance : IsTotal (FileName × Json) entryLE :=
  ⟨fun a b => le_total (_index a.1) (_index b.1)⟩

instance : IsTrans (FileName × Json) entryLE :=
  ⟨fun _ _ _ h1 h2 => le_trans h1 h2⟩

/-- The strict version of `entryLE`, used to show sorted orders with
pairwise-distinct keys are unique. -/
def entryLT (a b : FileName × Json) : Prop := _index a.1 < _index b.1

instance : IsAntisymm (FileName × Json) entryLT :=
  ⟨fun _ _ h1 h2 => absurd h2 (not_lt.mpr (le_of_lt h1))⟩

/-- The glob-matched entries, in file-system iteration order. -/
def matchingEntries (d : Dir) : Dir := d.filter (fun e => globVideoJson e.1)

/-- `sorted(directory.glob("video*.json"), key=_index)`; `insertionSort`
with `entryLE` is stable, like Python's `sorted`. -/
def sortedMatching (d : Dir) : Dir := List.insertionSort entryLE (matchingEntries d)

/-- `load_all_fingerprints(directory)`: `[]` when the directory does not
exist, otherwise the parsed contents of the matched records in sorted
order. -/
def load_all_fingerprints (fs : Option Dir) : List Json :=
  match fs with
  | none => []
  | some d => (sortedMatching d).map Prod.snd

/-! ## Basic evaluations (sanity checks of the embedding) -/

example : extract_fingerprint [] 22050 = none := by decide
example : extract_fingerprint [0, 0] 2 = some [] := by decide
example : extract_fingerprint [0, 0, 0] 2 = some [0] := by
  norm_num [extract_fingerprint, chunkOffsets, List.range', pyRound1, pyRoundHalfEven,
    maxAbs, abs_eq_max_neg, max_def]
example : extract_fingerprint [1/2, 1/4, 3/4] 2 = some [1/2] := by
  norm_num [extract_fingerprint, chunkOffsets, List.range', pyRound1, pyRoundHalfEven,
    maxAbs, abs_eq_max_neg, max_def]
example : pyRound1 (7/20) = 2/5 := by norm_num [pyRound1, pyRoundHalfEven]
example : pyRound1 (1/4) = 1/5 := by norm_num [pyRound1, pyRoundHalfEven]
example : best_match_position [1/10, 2/10] [5/10, 1/10, 2/10, 9/10] = some (1, 0) := by
  norm_num [best_match_position, bmpStep, _l1_distance, List.range_succ,
    abs_eq_max_neg, max_def]
example : best_match_position [1/10, 2/10, 3/10] [1/10, 2/10] = none := by decide
example : find_best_video [1/2, 1/2] [[1/2, 1/2], [1/2, 1/2]] = some (0, 0, 0) := by
  norm_num [find_best_video, fbvAux, fbvStep, best_match_position, bmpStep, _l1_distance,
    List.range_succ, abs_eq_max_neg, max_def]

/-! ## Invariants of the `best_match_position` scan -/

/-- After scanning offsets `0, …, n-1` (with `n ≥ 1`), the running state holds
the first offset attaining the minimum L1 distance among them. -/
lemma bmp_fold_spec (q r : List ℚ) (n : ℕ) (hn : 0 < n) :
    ∃ o d, (List.range n).foldl (bmpStep q r) none = some (o, d) ∧ o < n ∧
      d = _l1_distance q r o ∧ (∀ j, j < n → d ≤ _l1_distance q r j) ∧
      (∀ j, j < o → d < _l1_distance q r j) := by
  induction n with
  | zero => omega
  | succ n ih =>
    rcases Nat.eq_zero_or_pos n with hz | hpos
    · subst hz
      refine ⟨0, _l1_distance q r 0, ?_, Nat.zero_lt_one, rfl, ?_, ?_⟩
      · simp [List.range_succ, bmpStep]
      · intro j hj
        interval_cases j
        exact le_refl _
      · intro j hj
        omega
    · obtain ⟨o, d, hfold, ho, hd, hmin, hstrict⟩ := ih hpos
      rw [List.range_succ, List.foldl_append, List.foldl_cons, List.foldl_nil, hfold]
      by_cases hlt : _l1_distance q r n < d
      · refine ⟨n, _l1_distance q r n, ?_, Nat.lt_succ_self n, rfl, ?_, ?_⟩
        · simp [bmpStep, hlt]
        · intro j hj
          rcases Nat.lt_succ_iff_lt_or_eq.mp hj with hj' | hj'
          · exact le_of_lt (lt_of_lt_of_le hlt (hmin j hj'))
          · subst hj'; exact le_refl _
        · intro j hj
          exact lt_of_lt_of_le hlt (hmin j hj)
      · refine ⟨o, d, ?_, Nat.lt_succ_of_lt ho, hd, ?_, hstrict⟩
        · simp [bmpStep, hlt]
        · intro j hj
          rcases Nat.lt_succ_iff_lt_or_eq.mp hj with hj' | hj'
          · exact hmin j hj'
          · subst hj'; exact not_lt.mp hlt

/-- `best_match_position` when the query fits: it returns the first offset
attaining the minimal window distance. -/
lemma bmp_some_spec (q r : List ℚ) (h : q.length ≤ r.length) :
    ∃ o d, best_match_position q r = some (o, d) ∧ o ≤ r.length - q.length ∧
      d = _l1_distance q r o ∧
      (∀ j, j ≤ r.length - q.length → d ≤ _l1_distance q r j) ∧
      (∀ j, j < o → d < _l1_distance q r j) := by
  obtain ⟨o, d, hfold, ho, hd, hmin, hstrict⟩ :=
    bmp_fold_spec q r (r.length - q.length + 1) (Nat.succ_pos _)
  refine ⟨o, d, ?_, by omega, hd, ?_, hstrict⟩
  · rw [best_match_position, if_neg (not_lt.mpr h)]
    exact hfold
  · intro j hj
    exact hmin j (by omega)

/-- The sentinel characterisation of `best_match_position`. -/
lemma bmp_none_iff (q r : List ℚ) :
    best_match_position q r = none ↔ r.length < q.length := by
  constructor
  · intro h
    by_contra hc
    obtain ⟨o, d, hsome, -⟩ := bmp_some_spec q r (not_lt.mp hc)
    rw [h] at hsome
    exact Option.noConfusion hsome
  · intro h
    rw [best_match_position, if_pos h]

/-- The L1 distance of the empty query is `0` at every offset. -/
lemma l1_nil (r : List ℚ) (o : ℕ) : _l1_distance [] r o = 0 := rfl

/-- Against any reference, the empty query matches perfectly at offset 0. -/
lemma bmp_nil_query (r : List ℚ) : best_match_position [] r = some (0, 0) := by
  obtain ⟨o, d, hsome, -, hd, -, hstrict⟩ := bmp_some_spec [] r (by simp)
  have hd0 : d = 0 := by rw [hd, l1_nil]
  have ho0 : o = 0 := by
    by_contra hne
    have h0 := hstrict 0 (Nat.pos_of_ne_zero hne)
    rw [l1_nil, hd0] at h0
    exact lt_irrefl 0 h0
  rw [hsome, ho0, hd0]

/-! ## Invariants of the `find_best_video` loop -/

/-- Peeling the last reference off the `find_best_video` loop. -/
lemma fbvAux_concat (q : List ℚ) (idx : ℕ) (best : Option (ℕ × ℕ × ℚ))
    (refs : List (List ℚ)) (r : List ℚ) :
    fbvAux q idx best (refs ++ [r]) =
      fbvStep q (fbvAux q idx best refs) (idx + refs.length, r) := by
  induction refs generalizing idx best with
  | nil => simp [fbvAux]
  | cons x rest ih =>
    show fbvAux q (idx + 1) (fbvStep q best (idx, x)) (rest ++ [r]) =
      fbvStep q (fbvAux q (idx + 1) (fbvStep q best (idx, x)) rest)
        (idx + (x :: rest).length, r)
    rw [ih]
    have harith : idx + 1 + rest.length = idx + (x :: rest).length := by
      simp [List.length_cons]
      omega
    rw [harith]

/-- Case split for indexing into `refs ++ [r]`. -/
lemma getElem?_concat_cases {α : Type} (refs : List α) (r : α) (j : ℕ) (x : α)
    (h : (refs ++ [r])[j]? = some x) :
    (j < refs.length ∧ refs[j]? = some x) ∨ (j = refs.length ∧ x = r) := by
  rcases lt_or_ge j refs.length with hj | hj
  · left
    refine ⟨hj, ?_⟩
    rwa [List.getElem?_append, if_pos hj] at h
  · right
    rw [List.getElem?_append_right hj] at h
    rcases Nat.eq_or_lt_of_le hj with he | hlt
    · refine ⟨he.symm, ?_⟩
      rw [← he, Nat.sub_self] at h
      rw [List.getElem?_cons_zero] at h
      exact (Option.some_injective _ h).symm
    · exfalso
      rw [List.getElem?_eq_none (by simp; omega)] at h
      exact Option.noConfusion h

/-- Lifting an index of `refs` to `refs ++ [r]`. -/
lemma getElem?_concat_lift {α : Type} (refs : List α) (r : α) (j : ℕ) (x : α)
    (h : refs[j]? = some x) : (refs ++ [r])[j]? = some x := by
  have hj : j < refs.length := (List.getElem?_eq_some.mp h).1
  rwa [List.getElem?_append, if_pos hj]

/-- Full characterisation of `find_best_video`: it is the sentinel exactly
when every reference yields the sentinel, and otherwise it returns the
first reference attaining the minimal `best_match_position` distance,
together with that reference's match. -/
lemma fbv_spec (q : List ℚ) (refs : List (List ℚ)) :
    (find_best_video q refs = none ↔
      ∀ (j : ℕ) ref, refs[j]? = some ref → best_match_position q ref = none) ∧
    (∀ (i : ℕ) (f : ℕ) (d : ℚ), find_best_video q refs = some (i, f, d) →
      (∃ ref, refs[i]? = some ref ∧ best_match_position q ref = some (f, d)) ∧
      (∀ (j : ℕ) ref (f' : ℕ) (d' : ℚ), refs[j]? = some ref →
        best_match_position q ref = some (f', d') → d ≤ d') ∧
      (∀ (j : ℕ) ref (f' : ℕ) (d' : ℚ), j < i → refs[j]? = some ref →
        best_match_position q ref = some (f', d') → d < d')) := by
  induction refs using List.reverseRecOn with
  | nil =>
    constructor
    · simp [find_best_video, fbvAux]
    · intro i f d h
      simp [find_best_video, fbvAux] at h
  | append_singleton refs r ih =>
    have hstep : find_best_video q (refs ++ [r]) =
        fbvStep q (find_best_video q refs) (refs.length, r) := by
      show fbvAux q 0 none (refs ++ [r]) = _
      rw [fbvAux_concat]
      simp [find_best_video]
    cases hbr : best_match_position q r with
    | none =>
      have hkeep : find_best_video q (refs ++ [r]) = find_best_video q refs := by
        rw [hstep, fbvStep, hbr]
      constructor
      · rw [hkeep, ih.1]
        constructor
        · intro h j ref href
          rcases getElem?_concat_cases refs r j ref href with ⟨-, href'⟩ | ⟨-, hrr⟩
          · exact h j ref href'
          · rw [hrr]; exact hbr
        · intro h j ref href
          exact h j ref (getElem?_concat_lift refs r j ref href)
      · intro i f d h
        rw [hkeep] at h
        obtain ⟨⟨ref, href, hbmp⟩, hmin, hstrict⟩ := ih.2 i f d h
        refine ⟨⟨ref, getElem?_concat_lift refs r i ref href, hbmp⟩, ?_, ?_⟩
        · intro j ref' f' d' href' hbmp'
          rcases getElem?_concat_cases refs r j ref' href' with ⟨-, h1⟩ | ⟨-, h2⟩
          · exact hmin j ref' f' d' h1 hbmp'
          · rw [h2, hbr] at hbmp'
            exact Option.noConfusion hbmp'
        · intro j ref' f' d' hji href' hbmp'
          rcases getElem?_concat_cases refs r j ref' href' with ⟨-, h1⟩ | ⟨-, h2⟩
          · exact hstrict j ref' f' d' hji h1 hbmp'
          · rw [h2, hbr] at hbmp'
            exact Option.noConfusion hbmp'
    | some p =>
      obtain ⟨fr, dr⟩ := p
      cases hF : find_best_video q refs with
      | none =>
        have hnew : find_best_video q (refs ++ [r]) = some (refs.length, fr, dr) := by
          rw [hstep, fbvStep, hbr, hF]
        have hall : ∀ (j : ℕ) ref, refs[j]? = some ref → best_match_position q ref = none :=
          ih.1.mp hF
        constructor
        · rw [hnew]
          constructor
          · intro h
            exact Option.noConfusion h
          · intro h
            have := h refs.length r (List.getElem?_concat_length refs r)
            rw [hbr] at this
            exact Option.noConfusion this
        · intro i f d h
          rw [hnew] at h
          obtain ⟨hi, hf, hd⟩ : refs.length = i ∧ fr = f ∧ dr = d := by
            injection h with h'
            injection h' with h1 h2
            injection h2 with h3 h4
            exact ⟨h1, h3, h4⟩
          subst hi; subst hf; subst hd
          refine ⟨⟨r, List.getElem?_concat_length refs r, hbr⟩, ?_, ?_⟩
          · intro j ref' f' d' href' hbmp'
            rcases getElem?_concat_cases refs r j ref' href' with ⟨-, h1⟩ | ⟨-, h2⟩
            · rw [hall j ref' h1] at hbmp'
              exact Option.noConfusion hbmp'
            · rw [h2, hbr] at hbmp'
              injection hbmp' with h'
              injection h' with h1 h2
              rw [h2]
          · intro j ref' f' d' hji href' hbmp'
            have hjlen : j < refs.length := hji
            rcases getElem?_concat_cases refs r j ref' href' with ⟨-, h1⟩ | ⟨hje, -⟩
            · rw [hall j ref' h1] at hbmp'
              exact Option.noConfusion hbmp'
            · omega
      | some v =>
        obtain ⟨bi, bf, bd⟩ := v
        obtain ⟨⟨bref, hbref, hbmpb⟩, hmin, hstrict⟩ := ih.2 bi bf bd hF
        have hbilen : bi < refs.length := (List.getElem?_eq_some.mp hbref).1
        have hnotall : ¬ (∀ (j : ℕ) ref, (refs ++ [r])[j]? = some ref →
            best_match_position q ref = none) := by
          intro h
          have := h refs.length r (List.getElem?_concat_length refs r)
          rw [hbr] at this
          exact Option.noConfusion this
        by_cases hlt : dr < bd
        · have hnew : find_best_video q (refs ++ [r]) = some (refs.length, fr, dr) := by
            rw [hstep, fbvStep, hbr, hF]
            simp [hlt]
          constructor
          · rw [hnew]
            constructor
            · intro h
              exact Option.noConfusion h
            · intro h
              exact absurd h hnotall
          · intro i f d h
            rw [hnew] at h
            obtain ⟨hi, hf, hd⟩ : refs.length = i ∧ fr = f ∧ dr = d := by
              injection h with h'
              injection h' with h1 h2
              injection h2 with h3 h4
              exact ⟨h1, h3, h4⟩
            subst hi; subst hf; subst hd
            refine ⟨⟨r, List.getElem?_concat_length refs r, hbr⟩, ?_, ?_⟩
            · intro j ref' f' d' href' hbmp'
              rcases getElem?_concat_cases refs r j ref' href' with ⟨-, h1⟩ | ⟨-, h2⟩
              · exact le_of_lt (lt_of_lt_of_le hlt (hmin j ref' f' d' h1 hbmp'))
              · rw [h2, hbr] at hbmp'
                injection hbmp' with h'
                injection h' with h1 h2
                rw [h2]
            · intro j ref' f' d' hji href' hbmp'
              rcases getElem?_concat_cases refs r j ref' href' with ⟨-, h1⟩ | ⟨hje, -⟩
              · exact lt_of_lt_of_le hlt (hmin j ref' f' d' h1 hbmp')
              · omega
        · have hnew : find_best_video q (refs ++ [r]) = some (bi, bf, bd) := by
            rw [hstep, fbvStep, hbr, hF]
            simp [hlt]
          constructor
          · rw [hnew]
            constructor
            · intro h
              exact Option.noConfusion h
            · intro h
              exact absurd h hnotall
          · intro i f d h
            rw [hnew] at h
            obtain ⟨hi, hf, hd⟩ : bi = i ∧ bf = f ∧ bd = d := by
              injection h with h'
              injection h' with h1 h2
              injection h2 with h3 h4
              exact ⟨h1, h3, h4⟩
            subst hi; subst hf; subst hd
            refine ⟨⟨bref, getElem?_concat_lift refs r bi bref hbref, hbmpb⟩, ?_, ?_⟩
            · intro j ref' f' d' href' hbmp'
              rcases getElem?_concat_cases refs r j ref' href' with ⟨-, h1⟩ | ⟨-, h2⟩
              · exact hmin j ref' f' d' h1 hbmp'
              · rw [h2, hbr] at hbmp'
                obtain ⟨hf', hd'⟩ : fr = f' ∧ dr = d' := by
                  injection hbmp' with h'
                  injection h' with h1 h2
                  exact ⟨h1, h2⟩
                rw [← hd']
                exact not_lt.mp hlt
            · intro j ref' f' d' hji href' hbmp'
              rcases getElem?_concat_cases refs r j ref' href' with ⟨-, h1⟩ | ⟨hje, -⟩
              · exact hstrict j ref' f' d' hji h1 hbmp'
              · omega

/-! ## Properties of the envelope extractor -/

/-- A fold of `max` against absolute values never drops below its seed. -/
lemma foldl_max_abs_ge_seed (c : List ℚ) (b : ℚ) :
    b ≤ c.foldl (fun acc x => max acc |x|) b := by
  induction c generalizing b with
  | nil => exact le_refl b
  | cons x rest ih => exact le_trans (le_max_left b |x|) (ih (max b |x|))

/-- The chunk peak is nonnegative. -/
lemma maxAbs_nonneg (c : List ℚ) : 0 ≤ maxAbs c := foldl_max_abs_ge_seed c 0

/-- Rounding a nonnegative rational to an integer stays nonnegative. -/
lemma pyRoundHalfEven_nonneg {q : ℚ} (h : 0 ≤ q) : 0 ≤ pyRoundHalfEven q := by
  have hf : (0 : ℤ) ≤ ⌊q⌋ := Int.floor_nonneg.mpr h
  rw [pyRoundHalfEven]
  split_ifs <;> omega

/-- Rounding to one decimal place preserves nonnegativity. -/
lemma pyRound1_nonneg {q : ℚ} (h : 0 ≤ q) : 0 ≤ pyRound1 q := by
  rw [pyRound1]
  have h10 : (0 : ℚ) ≤ 10 * q := by positivity
  have := pyRoundHalfEven_nonneg h10
  have hcast : (0 : ℚ) ≤ (pyRoundHalfEven (10 * q) : ℚ) := by exact_mod_cast this
  exact div_nonneg hcast (by norm_num)

/-- Integers round to themselves. -/
lemma pyRoundHalfEven_intCast (k : ℤ) : pyRoundHalfEven (k : ℚ) = k := by
  rw [pyRoundHalfEven]
  simp only [Int.floor_intCast, sub_self]
  rw [if_pos (by norm_num : (0 : ℚ) < 1 / 2)]

/-- Rounding to one decimal place is idempotent. -/
lemma pyRound1_fixed (q : ℚ) : pyRound1 (pyRound1 q) = pyRound1 q := by
  conv_lhs => rw [pyRound1]
  have h10 : 10 * pyRound1 q = (pyRoundHalfEven (10 * q) : ℚ) := by
    rw [pyRound1]; ring
  rw [h10, pyRoundHalfEven_intCast, pyRound1]

/-- The chunk list of `extract_fingerprint` has `⌈n / sr⌉` elements. -/
lemma chunks_length (y : List ℚ) (sr : ℕ) :
    ((chunkOffsets y.length sr).map (fun o => (y.drop o).take sr)).length =
      (y.length + sr - 1) / sr := by
  rw [List.length_map, chunkOffsets, List.length_range']

/-! ## Claim theorems -/

/-- C1: the spec requires that a samples sequence with fewer than
`sample_rate` elements — including the empty one — yields the empty
fingerprint as a normal, successful result.  The code violates this at the
empty input: `chunks.pop()` raises `IndexError` on the empty chunk list
(modelled as `none`); for every *nonempty* input shorter than one second the
call does succeed with the empty fingerprint. -/
theorem extract_short_input_behaviour :
    extract_fingerprint ([] : List ℚ) 22050 = none ∧
    ∀ (y : List ℚ) (sr : ℕ), 0 < sr → y ≠ [] → y.length < sr →
      extract_fingerprint y sr = some [] := by
  refine ⟨by decide, ?_⟩
  intro y sr hsr hne hlen
  have hn : 0 < y.length := List.length_pos.mpr hne
  have hk : (y.length + sr - 1) / sr = 1 :=
    Nat.div_eq_of_lt_le (by omega) (by omega)
  have hoff : chunkOffsets y.length sr = [0] := by
    rw [chunkOffsets, hk, List.range'_one]
  simp [extract_fingerprint, hoff]

/-- C1 witness: a concrete nonempty sub-second input succeeds with `[]`. -/
theorem extract_short_input_behaviour_witness :
    (0 < 2 ∧ ([0] : List ℚ) ≠ [] ∧ ([0] : List ℚ).length < 2) ∧
    extract_fingerprint [0] 2 = some [] :=
  ⟨⟨by decide, by decide, by decide⟩,
    extract_short_input_behaviour.2 [0] 2 (by decide) (by decide) (by decide)⟩

/-- C2 counterexample: at `samples = [0, 0]`, `sample_rate = 2` (duration
exactly one second) the code returns a fingerprint of length 0, not the
`⌊n / sr⌋ = 1` the claim demands: the final chunk is dropped even though it
is a full chunk. -/
theorem extract_length_counterexample :
    ¬ ((extract_fingerprint [0, 0] 2).map List.length =
        some (([0, 0] : List ℚ).length / 2)) := by decide

/-- C2 amended: for `n = samples.length ≥ sr ≥ 1` the extractor returns
exactly `⌊(n - 1) / sr⌋` elements — that is `⌊n / sr⌋` when `sr` does not
divide `n`, but `n / sr - 1` when it does, because the final chunk is
dropped unconditionally, even when it is exactly full. -/
theorem extract_length_amended (y : List ℚ) (sr : ℕ) (h1 : 0 < sr)
    (h2 : sr ≤ y.length) :
    (extract_fingerprint y sr).map List.length = some ((y.length - 1) / sr) := by
  have hlen := chunks_length y sr
  rcases hch : (chunkOffsets y.length sr).map (fun o => (y.drop o).take sr) with
    _ | ⟨c, cs⟩
  · rw [hch] at hlen
    have hk1 : 1 ≤ (y.length + sr - 1) / sr := (Nat.one_le_div_iff h1).mpr (by omega)
    simp only [List.length_nil] at hlen
    rw [← hlen] at hk1
    exact absurd hk1 (by norm_num)
  · rw [hch] at hlen
    have hceil : (y.length + sr - 1) / sr = (y.length - 1) / sr + 1 := by
      have hrw : y.length + sr - 1 = (y.length - 1) + sr := by omega
      rw [hrw, Nat.add_div_right _ h1]
    simp only [extract_fingerprint, hch]
    simp only [Option.map_some']
    simp only [List.length_map, List.length_dropLast]
    simp only [List.length_cons] at hlen ⊢
    rw [Option.some.injEq]
    omega

/-- C2 witness: three samples at rate 2 give `⌊(3 - 1) / 2⌋ = 1` element. -/
theorem extract_length_amended_witness :
    (0 < 2 ∧ 2 ≤ ([0, 0, 0] : List ℚ).length) ∧
    (extract_fingerprint [0, 0, 0] 2).map List.length =
      some ((([0, 0, 0] : List ℚ).length - 1) / 2) :=
  ⟨⟨by decide, by decide⟩, extract_length_amended [0, 0, 0] 2 (by decide) (by decide)⟩

/-- C3: when the query fits inside the reference, `best_match_position`
returns an offset within `[0, len(reference) - len(query)]` together with the
L1 distance of the aligned window at that offset; that distance is minimal
over all valid offsets, and every strictly smaller offset has a strictly
larger distance (ties break towards the smallest offset). -/
theorem best_match_position_minimal (query reference : List ℚ)
    (h : query.length ≤ reference.length) :
    ∃ o d, best_match_position query reference = some (o, d) ∧
      o ≤ reference.length - query.length ∧
      d = _l1_distance query reference o ∧
      (∀ o', o' ≤ reference.length - query.length →
        d ≤ _l1_distance query reference o') ∧
      (∀ o', o' < o → d < _l1_distance query reference o') :=
  bmp_some_spec query reference h

/-- C3 witness: the spec's own example `query = [0.1, 0.2]`,
`reference = [0.5, 0.1, 0.2, 0.9]`. -/
theorem best_match_position_minimal_witness :
    ([(1 : ℚ)/10, 2/10].length ≤ [(5 : ℚ)/10, 1/10, 2/10, 9/10].length) ∧
    ∃ o d, best_match_position [(1 : ℚ)/10, 2/10] [(5 : ℚ)/10, 1/10, 2/10, 9/10] =
        some (o, d) ∧
      o ≤ [(5 : ℚ)/10, 1/10, 2/10, 9/10].length - [(1 : ℚ)/10, 2/10].length ∧
      d = _l1_distance [(1 : ℚ)/10, 2/10] [(5 : ℚ)/10, 1/10, 2/10, 9/10] o ∧
      (∀ o', o' ≤ [(5 : ℚ)/10, 1/10, 2/10, 9/10].length - [(1 : ℚ)/10, 2/10].length →
        d ≤ _l1_distance [(1 : ℚ)/10, 2/10] [(5 : ℚ)/10, 1/10, 2/10, 9/10] o') ∧
      (∀ o', o' < o →
        d < _l1_distance [(1 : ℚ)/10, 2/10] [(5 : ℚ)/10, 1/10, 2/10, 9/10] o') :=
  ⟨by norm_num, best_match_position_minimal _ _ (by norm_num)⟩

/-- C5: `best_match_position` returns its sentinel (the Python pair
`(-1, math.inf)`, modelled `none`) exactly when the query is strictly longer
than the reference; the definition returns it from the initial length guard,
before any window is scanned. -/
theorem best_match_position_sentinel_iff (query reference : List ℚ) :
    best_match_position query reference = none ↔
      reference.length < query.length :=
  bmp_none_iff query reference

/-- C4: whenever `find_best_video` returns a non-sentinel result
`(i, f, d)`, reference `i` attains distance `d` (with frame `f`) via
`best_match_position`, `d` is minimal among all references' best distances,
and every reference with a smaller index has a strictly larger best
distance (ties break towards the smallest index); in particular on the
spec's tie example it returns video index 0. -/
theorem find_best_video_minimal :
    (∀ (query : List ℚ) (references : List (List ℚ)) (i f : ℕ) (d : ℚ),
      find_best_video query references = some (i, f, d) →
        (∃ ref, references[i]? = some ref ∧
          best_match_position query ref = some (f, d)) ∧
        (∀ (j : ℕ) ref (f' : ℕ) (d' : ℚ), references[j]? = some ref →
          best_match_position query ref = some (f', d') → d ≤ d') ∧
        (∀ (j : ℕ) ref (f' : ℕ) (d' : ℚ), j < i → references[j]? = some ref →
          best_match_position query ref = some (f', d') → d < d')) ∧
    find_best_video [1/2, 1/2] [[1/2, 1/2], [1/2, 1/2]] = some (0, 0, 0) :=
  ⟨fun query references i f d h => (fbv_spec query references).2 i f d h,
    by norm_num [find_best_video, fbvAux, fbvStep, best_match_position, bmpStep,
      _l1_distance, List.range_succ, abs_eq_max_neg, max_def]⟩

/-- C4 witness: the minimality facts instantiated on the spec's tie
example. -/
theorem find_best_video_minimal_witness :
    find_best_video [(1 : ℚ)/2, 1/2] [[(1 : ℚ)/2, 1/2], [(1 : ℚ)/2, 1/2]] =
      some (0, 0, 0) ∧
    ((∃ ref, ([[(1 : ℚ)/2, 1/2], [(1 : ℚ)/2, 1/2]])[0]? = some ref ∧
        best_match_position [(1 : ℚ)/2, 1/2] ref = some (0, 0)) ∧
      (∀ (j : ℕ) ref (f' : ℕ) (d' : ℚ),
        ([[(1 : ℚ)/2, 1/2], [(1 : ℚ)/2, 1/2]])[j]? = some ref →
        best_match_position [(1 : ℚ)/2, 1/2] ref = some (f', d') → 0 ≤ d') ∧
      (∀ (j : ℕ) ref (f' : ℕ) (d' : ℚ), j < 0 →
        ([[(1 : ℚ)/2, 1/2], [(1 : ℚ)/2, 1/2]])[j]? = some ref →
        best_match_position [(1 : ℚ)/2, 1/2] ref = some (f', d') → 0 < d')) :=
  ⟨by norm_num [find_best_video, fbvAux, fbvStep, best_match_position, bmpStep,
      _l1_distance, List.range_succ, abs_eq_max_neg, max_def],
    find_best_video_minimal.1 [(1 : ℚ)/2, 1/2] [[(1 : ℚ)/2, 1/2], [(1 : ℚ)/2, 1/2]]
      0 0 0
      (by norm_num [find_best_video, fbvAux, fbvStep, best_match_position, bmpStep,
        _l1_distance, List.range_succ, abs_eq_max_neg, max_def])⟩

/-- C6: `find_best_video` returns its full sentinel (the Python triple
`(-1, -1, math.inf)`, modelled `none`) exactly when the reference list is
empty or no reference is at least as long as the query. -/
theorem find_best_video_sentinel_iff (query : List ℚ)
    (references : List (List ℚ)) :
    find_best_video query references = none ↔
      ∀ ref ∈ references, ref.length < query.length := by
  rw [(fbv_spec query references).1]
  constructor
  · intro h ref href
    obtain ⟨j, hj⟩ := List.mem_iff_getElem?.mp href
    exact (bmp_none_iff query ref).mp (h j ref hj)
  · intro h j ref hj
    exact (bmp_none_iff query ref).mpr (h ref (List.mem_iff_getElem?.mpr ⟨j, hj⟩))

/-- C10: the empty query matches every reference (including the empty one)
perfectly at offset 0 with distance 0, and `find_best_video` with an empty
query and a nonempty reference list returns `(0, 0, 0.0)`, never the
sentinel. -/
theorem empty_query_matches_everywhere :
    (∀ reference : List ℚ, best_match_position [] reference = some (0, 0)) ∧
    (∀ references : List (List ℚ), references ≠ [] →
      find_best_video [] references = some (0, 0, 0)) := by
  refine ⟨bmp_nil_query, ?_⟩
  intro refs hne
  obtain ⟨r0, rest, rfl⟩ : ∃ r0 rest, refs = r0 :: rest := by
    cases refs with
    | nil => exact absurd rfl hne
    | cons a l => exact ⟨a, l, rfl⟩
  cases hfv : find_best_video [] (r0 :: rest) with
  | none =>
    have h0 := (fbv_spec [] (r0 :: rest)).1.mp hfv 0 r0 (by simp)
    rw [bmp_nil_query r0] at h0
    exact Option.noConfusion h0
  | some v =>
    obtain ⟨i, f, d⟩ := v
    obtain ⟨⟨ref, href, hbmp⟩, -, hstrict⟩ := (fbv_spec [] (r0 :: rest)).2 i f d hfv
    rw [bmp_nil_query ref] at hbmp
    obtain ⟨hf, hd⟩ : (0 : ℕ) = f ∧ (0 : ℚ) = d := by
      injection hbmp with h'
      injection h' with h1 h2
      exact ⟨h1, h2⟩
    have hi : i = 0 := by
      by_contra hne'
      have hlt := hstrict 0 r0 0 0 (Nat.pos_of_ne_zero hne') (by simp)
        (bmp_nil_query r0)
      rw [← hd] at hlt
      exact lt_irrefl 0 hlt
    rw [hi, ← hf, ← hd]

/-- C10 witness: one nonempty reference list. -/
theorem empty_query_matches_everywhere_witness :
    ([[(1 : ℚ)]] ≠ ([] : List (List ℚ))) ∧
    find_best_video [] [[(1 : ℚ)]] = some (0, 0, 0) :=
  ⟨by decide, empty_query_matches_everywhere.2 [[(1 : ℚ)]] (by decide)⟩

/-- C9: every value of a successfully extracted fingerprint is nonnegative
and is a fixed point of rounding to one decimal place. -/
theorem fingerprint_values_invariant (y : List ℚ) (sr : ℕ) (fp : List ℚ)
    (h : extract_fingerprint y sr = some fp) :
    ∀ v ∈ fp, 0 ≤ v ∧ pyRound1 v = v := by
  intro v hv
  simp only [extract_fingerprint] at h
  rcases hch : (chunkOffsets y.length sr).map (fun o => (y.drop o).take sr) with
    _ | ⟨c, cs⟩
  · rw [hch] at h
    exact absurd h (by simp)
  · rw [hch] at h
    simp only [Option.some.injEq] at h
    rw [← h] at hv
    obtain ⟨ch, -, hveq⟩ := List.mem_map.mp hv
    rw [← hveq]
    exact ⟨pyRound1_nonneg (maxAbs_nonneg ch), pyRound1_fixed (maxAbs ch)⟩

/-- C9 witness: a concrete extraction whose single value is `0.5`. -/
theorem fingerprint_values_invariant_witness :
    (extract_fingerprint [1/2, 1/4, 3/4] 2 = some [1/2] ∧ (1 : ℚ)/2 ∈ [(1 : ℚ)/2]) ∧
    (0 ≤ (1 : ℚ)/2 ∧ pyRound1 ((1 : ℚ)/2) = (1 : ℚ)/2) :=
  ⟨⟨by norm_num [extract_fingerprint, chunkOffsets, List.range', pyRound1,
      pyRoundHalfEven, maxAbs, abs_eq_max_neg, max_def], by simp⟩,
    fingerprint_values_invariant [1/2, 1/4, 3/4] 2 [1/2]
      (by norm_num [extract_fingerprint, chunkOffsets, List.range', pyRound1,
        pyRoundHalfEven, maxAbs, abs_eq_max_neg, max_def])
      (1/2) (by simp)⟩

/-! ## Properties of the fingerprint store -/

/-- Looking a record up right after writing it yields what was written. -/
lemma lookup_write (d : Dir) (p : FileName) (v : Json) :
    lookupFile (writeFile d p v) p = some v := by
  induction d with
  | nil => simp [writeFile, lookupFile]
  | cons e rest ih =>
    obtain ⟨q, w⟩ := e
    by_cases hq : q = p
    · simp [writeFile, hq, lookupFile]
    · simp [writeFile, hq, lookupFile, ih]

/-- `decodeNums` inverts the element-wise numeric encoding. -/
lemma decodeNums_map_num (fp : List ℚ) : decodeNums (fp.map Json.num) = some fp := by
  induction fp with
  | nil => rfl
  | cons q rest ih => simp [decodeNums, ih]

/-- Deserialisation inverts serialisation exactly. -/
lemma decode_dumps (fp : List ℚ) : decodeFingerprint (dumps fp) = some fp := by
  simp [dumps, decodeFingerprint, decodeNums_map_num]

/-- C7: saving a fingerprint under index `i` and loading index `i` from the
resulting directory returns exactly the saved fingerprint: the loaded JSON
value is precisely the serialisation of `f`, and that serialisation decodes
back to `f` with no loss. -/
theorem save_load_round_trip (fingerprint : List ℚ) (video_index : ℕ)
    (fs : Option Dir) :
    load_fingerprint video_index (some (save_fingerprint fingerprint video_index fs)) =
      some (dumps fingerprint) ∧
    decodeFingerprint (dumps fingerprint) = some fingerprint := by
  constructor
  · show lookupFile (writeFile (fs.getD []) (_path_for video_index)
      (dumps fingerprint)) (_path_for video_index) = some (dumps fingerprint)
    exact lookup_write (fs.getD []) (_path_for video_index) (dumps fingerprint)
  · exact decode_dumps fingerprint

/-- C8: `load_all_fingerprints` of a nonexistent directory is empty; saving
under indices 3, 1, 2 (in that file-system order) loads back as the records
of indices 1, 2, 3; the matched entries are returned sorted by the numeric
index extracted from their names; the result is independent of file-system
iteration order whenever the matched names carry pairwise-distinct indices;
and a directory with no matching record loads as empty. -/
theorem load_all_sorted_by_index :
    load_all_fingerprints none = [] ∧
    (∀ f1 f2 f3 : List ℚ,
      load_all_fingerprints (some (save_fingerprint f2 2 (some (save_fingerprint f1 1
        (some (save_fingerprint f3 3 none)))))) = [dumps f1, dumps f2, dumps f3]) ∧
    (∀ d : Dir, List.Sorted entryLE (sortedMatching d)) ∧
    (∀ d₁ d₂ : Dir, d₁.Perm d₂ →
      (matchingEntries d₁).Pairwise (fun a b => _index a.1 ≠ _index b.1) →
      load_all_fingerprints (some d₁) = load_all_fingerprints (some d₂)) ∧
    (∀ d : Dir, (∀ e ∈ d, globVideoJson e.1 = false) →
      load_all_fingerprints (some d) = []) := by
  refine ⟨rfl, ?_, ?_, ?_, ?_⟩
  · intro f1 f2 f3
    rfl
  · intro d
    exact List.sorted_insertionSort entryLE (matchingEntries d)
  · intro d₁ d₂ hperm hnodup
    show (sortedMatching d₁).map Prod.snd = (sortedMatching d₂).map Prod.snd
    have hpm : (matchingEntries d₁).Perm (matchingEntries d₂) := by
      unfold matchingEntries
      exact hperm.filter _
    have hperm' : (sortedMatching d₁).Perm (sortedMatching d₂) :=
      ((List.perm_insertionSort entryLE (matchingEntries d₁)).trans hpm).trans
        (List.perm_insertionSort entryLE (matchingEntries d₂)).symm
    have hsymm : ∀ {a b : FileName × Json},
        _index a.1 ≠ _index b.1 → _index b.1 ≠ _index a.1 := fun h => h.symm
    have hnd₁ : (sortedMatching d₁).Pairwise
        (fun a b => _index a.1 ≠ _index b.1) :=
      (List.Perm.pairwise_iff hsymm
        (List.perm_insertionSort entryLE (matchingEntries d₁))).mpr hnodup
    have hnd₂ : (sortedMatching d₂).Pairwise
        (fun a b => _index a.1 ≠ _index b.1) :=
      (List.Perm.pairwise_iff hsymm
        ((List.perm_insertionSort entryLE (matchingEntries d₂)).trans
          hpm.symm)).mpr hnodup
    have hstrict₁ : (sortedMatching d₁).Pairwise entryLT :=
      ((List.sorted_insertionSort entryLE (matchingEntries d₁)).and hnd₁).imp
        (fun h => lt_of_le_of_ne h.1 h.2)
    have hstrict₂ : (sortedMatching d₂).Pairwise entryLT :=
      ((List.sorted_insertionSort entryLE (matchingEntries d₂)).and hnd₂).imp
        (fun h => lt_of_le_of_ne h.1 h.2)
    have heq : sortedMatching d₁ = sortedMatching d₂ :=
      List.eq_of_perm_of_sorted hperm' hstrict₁ hstrict₂
    rw [heq]
  · intro d h
    show (sortedMatching d).map Prod.snd = []
    have hm : matchingEntries d = [] := by
      rw [matchingEntries, List.filter_eq_nil_iff]
      intro e he
      simp [h e he]
    rw [sortedMatching, hm]
    rfl

/-- C8 witness: two records saved for indices 2 and 1, listed in the two
possible file-system orders, load identically. -/
theorem load_all_sorted_by_index_witness :
    ([(_path_for 2, dumps [1]), (_path_for 1, dumps [0])].Perm
        [(_path_for 1, dumps [0]), (_path_for 2, dumps [1])] ∧
      (matchingEntries [(_path_for 2, dumps [1]), (_path_for 1, dumps [0])]).Pairwise
        (fun a b => _index a.1 ≠ _index b.1)) ∧
    load_all_fingerprints (some [(_path_for 2, dumps [1]), (_path_for 1, dumps [0])]) =
      load_all_fingerprints (some [(_path_for 1, dumps [0]), (_path_for 2, dumps [1])]) := by
  have hperm : [(_path_for 2, dumps [1]), (_path_for 1, dumps [0])].Perm
      [(_path_for 1, dumps [0]), (_path_for 2, dumps [1])] :=
    List.Perm.swap (_path_for 1, dumps [0]) (_path_for 2, dumps [1]) []
  have hpw : (matchingEntries [(_path_for 2, dumps [1]), (_path_for 1, dumps [0])]).Pairwise
      (fun a b => _index a.1 ≠ _index b.1) := by
    have hglob2 : globVideoJson (_path_for 2) = true := by decide
    have hglob1 : globVideoJson (_path_for 1) = true := by decide
    have hidx : _index (_path_for 2) ≠ _index (_path_for 1) := by decide
    simp [matchingEntries, List.filter, hglob2, hglob1]
    exact hidx
  exact ⟨⟨hperm, hpw⟩, load_all_sorted_by_index.2.2.2.1 _ _ hperm hpw⟩

end VideoShazam
